import Mathlib

/-!
Shallow embedding of the greek-learning-bot core (quiz generation,
answer checking, statistics tracking, session state) and proofs of the
specification claims about it.

The SQLite store is modelled as Lean lists of rows.  SQL
`ORDER BY RANDOM() LIMIT n` is modelled by an oracle value constrained
by `SqlRandomLimit`: the returned rows are a sub-permutation of the
candidate rows of length `min n candidates.length`.  `random.shuffle`
is modelled by an oracle function constrained to produce a permutation
of its input.  Timestamps are modelled as natural numbers.
-/

/-- Row of the `words` table (src/database/models.py, create_words_table):
id, greek, russian, word_type. -/
structure Word where
  id : Nat
  greek : String
  russian : String
  word_type : String
deriving DecidableEq, Repr

/-- Quiz dictionary returned by `QuizService.generate_quiz`
(src/services/quiz_service.py). -/
structure Quiz where
  word_id : Nat
  question : String
  answers : List String
  correct_index : Nat
  direction : String
  word_type : String
deriving DecidableEq, Repr

/-- Candidate rows of the SQL filter `WHERE id != ? AND word_type = ?`
used by `generate_wrong_answers_for_word` and by the RU→GR re-fetch in
`generate_quiz`. -/
def wordCandidates (db : List Word) (wid : Nat) (wt : String) : List Word :=
  db.filter (fun w => w.id != wid && w.word_type == wt)

/-- Candidate rows of the SQL filter `WHERE russian != ? AND word_type = 'phrase'`
used by `generate_wrong_answers_for_phrase` (src/utils/wrong_answers.py). -/
def phraseCandidates (db : List Word) (correct : String) : List Word :=
  db.filter (fun w => w.russian != correct && w.word_type == "phrase")

/-- Candidate set of the first distractor fetch in `generate_wrong_answers`
(src/utils/wrong_answers.py, lines 54-69): phrase words are filtered by
russian text, all other word types by id. -/
def wrongAnswerCandidates (db : List Word) (word_id : Nat) (word_type : String)
    (correct_answer : String) : List Word :=
  if word_type == "phrase" then phraseCandidates db correct_answer
  else wordCandidates db word_id word_type

/-- Semantics of SQL `ORDER BY RANDOM() LIMIT n` over a candidate row list:
the result is a length-`min n candidates.length` sub-permutation of the
candidates. -/
def SqlRandomLimit (candidates : List Word) (n : Nat) (sel : List Word) : Prop :=
  List.Subperm sel candidates ∧ sel.length = min n candidates.length

/-- The `generate_wrong_answers` functions map the selected rows to their
`russian` column (src/utils/wrong_answers.py, lines 28 and 50). -/
def generate_wrong_answers (sel : List Word) : List String :=
  sel.map (fun w => w.russian)

/-- Randomness oracle for one `generate_quiz` call: the sampled word
(`SELECT * FROM words ORDER BY RANDOM() LIMIT 1`), the direction coin
flip `random.choice([True, False])`, the rows of the first distractor
fetch, the rows of the RU→GR re-fetch, and the `random.shuffle`
realisation. -/
structure QuizOracle where
  pickWord : Option Word
  dir : Bool
  sel1 : List Word
  sel2 : List Word
  shuffle : List String → List String

/-- Constraints tying a `QuizOracle` to the database: the sampled word is
`none` exactly on an empty table and otherwise a member of it, the two
distractor selections respect `ORDER BY RANDOM() LIMIT 3` over the
corresponding SQL filters, and the shuffle is a permutation. -/
def ValidOracle (db : List Word) (o : QuizOracle) : Prop :=
  (match o.pickWord with
   | none => db = []
   | some w =>
       w ∈ db ∧
       SqlRandomLimit (wrongAnswerCandidates db w.id w.word_type w.russian) 3 o.sel1 ∧
       SqlRandomLimit (wordCandidates db w.id w.word_type) 3 o.sel2) ∧
  (∀ l, List.Perm (o.shuffle l) l)

/-- Embedding of `QuizService.generate_quiz` (src/services/quiz_service.py,
lines 39-99): sample a word (None on empty table), fetch 3 distractors,
fail when fewer than 3 were returned, pick a direction, re-fetch Greek
distractors for RU→GR, build and shuffle the 4 answers, and record the
post-shuffle index of the correct answer via Python `list.index`. -/
def generate_quiz (db : List Word) (o : QuizOracle) : Option Quiz :=
  match o.pickWord with
  | none => none
  | some word =>
    let wrong_answers := generate_wrong_answers o.sel1
    if wrong_answers.length < 3 then none
    else
      let is_greek_to_russian := o.dir
      let question := if is_greek_to_russian then word.greek else word.russian
      let correct_answer := if is_greek_to_russian then word.russian else word.greek
      let wrongs := if is_greek_to_russian then wrong_answers
                    else o.sel2.map (fun w => w.greek)
      let all_answers := o.shuffle (correct_answer :: wrongs)
      let correct_index := all_answers.indexOf correct_answer
      some { word_id := word.id, question := question, answers := all_answers,
             correct_index := correct_index,
             direction := if is_greek_to_russian then "GR→RU" else "RU→GR",
             word_type := word.word_type }

/-- Embedding of `QuizService.check_answer` (src/services/quiz_service.py,
lines 101-112): pure comparison of the selected index with the stored
correct index.  The index is an integer, as in Python, so negative and
out-of-range selections are representable. -/
def check_answer (quiz_data : Quiz) (user_answer_index : Int) : Bool :=
  user_answer_index == (quiz_data.correct_index : Int)

/-- Row of the `user_stats` table (src/database/models.py,
create_user_stats_table).  The autoincrement id and
difficulty_multiplier columns play no role in the claims and are
omitted; timestamps are naturals. -/
structure UserStat where
  user_id : Nat
  word_id : Nat
  correct_answers : Nat
  total_answers : Nat
  last_asked : Nat
deriving DecidableEq, Repr

/-- SQL filter `WHERE user_id = ? AND word_id = ?` on `user_stats`. -/
def statKey (u w : Nat) (r : UserStat) : Bool :=
  r.user_id == u && r.word_id == w

/-- First step of `StatsService.record_answer` (src/services/stats_service.py,
lines 22-23): the SELECT of the existing rows for (user_id, word_id),
run as its own transaction. -/
def record_answer_select (st : List UserStat) (u w : Nat) : List UserStat :=
  st.filter (statKey u w)

/-- Second step of `StatsService.record_answer` (src/services/stats_service.py,
lines 25-49): depending on the snapshot taken by the SELECT, either the
UPDATE computed from the snapshot's first row, or the INSERT of a fresh
row; run as its own transaction on the current table state. -/
def record_answer_write (st : List UserStat) (u w : Nat) (is_correct : Bool)
    (now : Nat) (snapshot : List UserStat) : List UserStat :=
  match snapshot with
  | [] => st ++ [⟨u, w, if is_correct then 1 else 0, 1, now⟩]
  | stat :: _ =>
      st.map (fun r =>
        if statKey u w r then
          { r with correct_answers := stat.correct_answers + (if is_correct then 1 else 0),
                   total_answers := stat.total_answers + 1,
                   last_asked := now }
        else r)

/-- Embedding of `StatsService.record_answer`: the SELECT followed by the
write computed from its snapshot. -/
def record_answer (st : List UserStat) (u w : Nat) (is_correct : Bool)
    (now : Nat) : List UserStat :=
  record_answer_write st u w is_correct now (record_answer_select st u w)

/-- Result dictionary of `StatsService.get_user_stats`. -/
structure UserStatsSummary where
  total_correct : Nat
  total_questions : Nat
  success_rate : ℚ
deriving DecidableEq, Repr

/-- Python `round(x, 1)` modelled over the rationals: round to the nearest
multiple of 1/10.  (Python uses binary floats with ties to even; the
models differ only on exact ties, which none of the claims exercise.) -/
def round1 (q : ℚ) : ℚ := (round (q * 10) : ℚ) / 10

/-- Embedding of `StatsService.get_user_stats` (src/services/stats_service.py,
lines 52-86): SUM the correct and total counters over the user's rows;
when the SELECT's SUM is NULL (no rows) return the zero summary,
otherwise divide, scale to percent and round to one decimal. -/
def get_user_stats (st : List UserStat) (u : Nat) : UserStatsSummary :=
  let rows := st.filter (fun r => r.user_id == u)
  if rows.isEmpty then ⟨0, 0, 0⟩
  else
    let total_correct : Nat := (rows.map (fun r => r.correct_answers)).sum
    let total_questions : Nat := (rows.map (fun r => r.total_answers)).sum
    let success_rate : ℚ :=
      if total_questions > 0 then (total_correct : ℚ) / (total_questions : ℚ) * 100 else 0
    ⟨total_correct, total_questions, round1 success_rate⟩

/-- Row of the `users` table (src/database/models.py, create_users_table)
with its declared column defaults: quiz_session_active 0,
auto_quiz_enabled 1, questions_per_session 5, session_interval_minutes
15, last_auto_quiz NULL, joined_at CURRENT_TIMESTAMP. -/
structure UserRow where
  user_id : Nat
  username : Option String
  first_name : Option String
  quiz_session_active : Bool
  auto_quiz_enabled : Bool
  questions_per_session : Nat
  session_interval_minutes : Nat
  last_auto_quiz : Option Nat
  joined_at : Nat
deriving DecidableEq, Repr

/-- Semantics of `INSERT OR REPLACE INTO users (user_id, username,
first_name, quiz_session_active) VALUES (?, ?, ?, 1)`
(src/handlers/quiz.py, lines 69-72): the conflicting row is deleted and
a fresh row is inserted; every column not listed takes its declared
default, with CURRENT_TIMESTAMP modelled by `now`. -/
def insert_or_replace_user (tbl : List UserRow) (u : Nat)
    (un fn : Option String) (now : Nat) : List UserRow :=
  tbl.filter (fun r => r.user_id != u) ++ [⟨u, un, fn, true, true, 5, 15, none, now⟩]

/-- Truth value of `SELECT quiz_session_active FROM users WHERE user_id = ?`
as tested by the handlers: false when no row exists, otherwise the flag
of the first returned row. -/
def sessionActive (tbl : List UserRow) (u : Nat) : Bool :=
  match tbl.filter (fun r => r.user_id == u) with
  | [] => false
  | r :: _ => r.quiz_session_active

/-- Reply sent back by `quiz_session_command`. -/
inductive SessionReply where
  | warningActive
  | started
deriving DecidableEq, Repr

/-- Embedding of `quiz_session_command` (src/handlers/quiz.py, lines 54-83):
when the user's session flag is already active, reply with the warning
and change nothing; otherwise mark the session active with
INSERT OR REPLACE and reply that the session started. -/
def quiz_session_command (tbl : List UserRow) (u : Nat)
    (un fn : Option String) (now : Nat) : List UserRow × SessionReply :=
  if sessionActive tbl u then (tbl, .warningActive)
  else (insert_or_replace_user tbl u un fn now, .started)

/-- Embedding of `stop_command` (src/handlers/quiz.py, lines 86-107):
`UPDATE users SET quiz_session_active = 0 WHERE user_id = ?`, then fetch
and report the user's final statistics. -/
def stop_command (tbl : List UserRow) (st : List UserStat) (u : Nat) :
    List UserRow × UserStatsSummary :=
  (tbl.map (fun r =>
      if r.user_id == u then { r with quiz_session_active := false } else r),
   get_user_stats st u)

/-- Reply produced by `answer_callback`. -/
inductive AnswerOutput where
  | noQuizError
  | answered (is_correct : Bool) (summary : UserStatsSummary)
deriving DecidableEq, Repr

/-- Embedding of `answer_callback` (src/handlers/quiz.py, lines 110-185):
with no stored current quiz, reply with the "request a new quiz" error
and touch nothing; otherwise check the answer, record it, report the
updated statistics, clear the current quiz, and, when the session flag
is active, generate and store the next quiz (left unchanged at `none`
when generation fails). -/
def answer_callback (db : List Word) (o : QuizOracle) (st : List UserStat)
    (tbl : List UserRow) (current : Option Quiz) (u : Nat) (idx : Int)
    (now : Nat) :
    List UserStat × List UserRow × Option Quiz × AnswerOutput :=
  match current with
  | none => (st, tbl, none, .noQuizError)
  | some q =>
      let is_correct := check_answer q idx
      let st' := record_answer st u q.word_id is_correct now
      let summary := get_user_stats st' u
      if sessionActive tbl u then
        match generate_quiz db o with
        | some q' => (st', tbl, some q', .answered is_correct summary)
        | none => (st', tbl, none, .answered is_correct summary)
      else (st', tbl, none, .answered is_correct summary)

/-- Sum of the `correct_answers` column over a row list, as in the SQL
`SUM(correct_answers)` of `get_user_stats`. -/
def sumCorrect (rows : List UserStat) : Nat :=
  (rows.map (fun r => r.correct_answers)).sum

/-- Sum of the `total_answers` column over a row list, as in the SQL
`SUM(total_answers)` of `get_user_stats`. -/
def sumTotal (rows : List UserStat) : Nat :=
  (rows.map (fun r => r.total_answers)).sum

/-- Interleaving of two `record_answer` calls for the same (user, word) in
which both SELECT transactions run before either write transaction:
each call is the SELECT step followed by the write step of
`StatsService.record_answer`, exactly as split in `record_answer`. -/
def interleaved_record_answer (st : List UserStat) (u w : Nat)
    (b1 b2 : Bool) (t1 t2 : Nat) : List UserStat :=
  let snap1 := record_answer_select st u w
  let snap2 := record_answer_select st u w
  let st1 := record_answer_write st u w b1 t1 snap1
  record_answer_write st1 u w b2 t2 snap2

/-- Vocabulary in which two distinct nouns share the russian translation
"dom"; the `words` table enforces no uniqueness on translations. -/
def cexDb : List Word :=
  [⟨1, "alpha", "dom", "noun"⟩, ⟨2, "beta", "dom", "noun"⟩,
   ⟨3, "gamma", "voda", "noun"⟩, ⟨4, "delta", "psomi", "noun"⟩]

/-- The word sampled in the duplicate-translation counterexample. -/
def cexW : Word := ⟨1, "alpha", "dom", "noun"⟩

/-- Oracle realisation for the counterexample: word 1 is sampled, the
direction coin lands on GR→RU, both distractor fetches return the three
other nouns in table order, and the shuffle happens to leave the answer
list unchanged. -/
def cexOracle : QuizOracle :=
  { pickWord := some cexW, dir := true,
    sel1 := [⟨2, "beta", "dom", "noun"⟩, ⟨3, "gamma", "voda", "noun"⟩,
             ⟨4, "delta", "psomi", "noun"⟩],
    sel2 := [⟨2, "beta", "dom", "noun"⟩, ⟨3, "gamma", "voda", "noun"⟩,
             ⟨4, "delta", "psomi", "noun"⟩],
    shuffle := fun l => l }

/-- The quiz produced from `cexDb` under `cexOracle`. -/
def cexQuiz : Quiz :=
  ⟨1, "alpha", ["dom", "dom", "voda", "psomi"], 0, "GR→RU", "noun"⟩

/-- Vocabulary with pairwise distinct ids, terms and translations, used to
instantiate the hypothesis-bearing quiz theorems. -/
def wDb : List Word :=
  [⟨1, "nero", "voda", "noun"⟩, ⟨2, "spiti", "dom", "noun"⟩,
   ⟨3, "psomi", "hleb", "noun"⟩, ⟨4, "vivlio", "kniga", "noun"⟩]

/-- Oracle realisation over `wDb`: word 1 sampled, RU→GR direction, both
fetches return the three other nouns, identity shuffle. -/
def wOracle : QuizOracle :=
  { pickWord := some ⟨1, "nero", "voda", "noun"⟩, dir := false,
    sel1 := [⟨2, "spiti", "dom", "noun"⟩, ⟨3, "psomi", "hleb", "noun"⟩,
             ⟨4, "vivlio", "kniga", "noun"⟩],
    sel2 := [⟨2, "spiti", "dom", "noun"⟩, ⟨3, "psomi", "hleb", "noun"⟩,
             ⟨4, "vivlio", "kniga", "noun"⟩],
    shuffle := fun l => l }

/-- Statistics table state after user 1 answers five quizzes, three of them
correctly, built by the `record_answer` operation itself. -/
def wStats : List UserStat :=
  record_answer (record_answer (record_answer (record_answer
    (record_answer [] 1 10 true 0) 1 11 true 1) 1 10 false 2)
    1 12 true 3) 1 11 false 4

instance (c : List Word) (n : Nat) (s : List Word) :
    Decidable (SqlRandomLimit c n s) :=
  inferInstanceAs (Decidable (List.Subperm s c ∧ s.length = min n c.length))

/-- Filtering with a pointwise weaker predicate keeps at least as many
elements. -/
theorem length_filter_mono {α : Type} (l : List α) (p q : α → Bool)
    (h : ∀ x ∈ l, p x = true → q x = true) :
    (l.filter p).length ≤ (l.filter q).length := by
  induction l with
  | nil => simp
  | cons a t ih =>
    have ht : ∀ x ∈ t, p x = true → q x = true :=
      fun x hx => h x (List.mem_cons_of_mem a hx)
    by_cases hpa : p a = true
    · have hqa := h a (List.mem_cons_self a t) hpa
      simpa [List.filter_cons, hpa, hqa] using Nat.succ_le_succ (ih ht)
    · rw [List.filter_cons, if_neg hpa]
      cases hqa : q a
      · rw [List.filter_cons, if_neg (by simp [hqa])]
        exact ih ht
      · rw [List.filter_cons, if_pos (by simp [hqa])]
        exact Nat.le_succ_of_le (ih ht)

/-- Sub-permutations are preserved by mapping. -/
theorem subperm_map {α β : Type} (f : α → β) {l₁ l₂ : List α}
    (h : List.Subperm l₁ l₂) : List.Subperm (l₁.map f) (l₂.map f) := by
  obtain ⟨l, hp, hs⟩ := h
  exact ⟨l.map f, hp.map f, hs.map f⟩

/-- A sub-permutation of a duplicate-free list is duplicate-free. -/
theorem subperm_nodup {α : Type} {l₁ l₂ : List α}
    (h : List.Subperm l₁ l₂) (hn : l₂.Nodup) : l₁.Nodup := by
  obtain ⟨l, hp, hs⟩ := h
  exact hp.nodup_iff.mp (hs.nodup hn)

/-- Mapping with a function that does not change the predicate's value
commutes with filtering. -/
theorem filter_map_comm {α : Type} (l : List α) (f : α → α) (p : α → Bool)
    (h : ∀ x, p (f x) = p x) : (l.map f).filter p = (l.filter p).map f := by
  induction l with
  | nil => rfl
  | cons a t ih =>
    simp only [List.map_cons, List.filter_cons, h a]
    cases hpa : p a <;> simp [ih]

/-- In a users table with duplicate-free user ids, the SQL filter on a
present user's id returns exactly that row. -/
theorem users_filter_eq_single {tbl : List UserRow} {r : UserRow} {u : Nat}
    (huniq : (tbl.map (fun x => x.user_id)).Nodup) (hmem : r ∈ tbl)
    (hid : r.user_id = u) :
    tbl.filter (fun x => x.user_id == u) = [r] := by
  induction tbl with
  | nil => cases hmem
  | cons a t ih =>
    rw [List.map_cons, List.nodup_cons] at huniq
    rcases List.mem_cons.mp hmem with heq | hmt
    · subst heq
      rw [List.filter_cons, if_pos (by simp [hid])]
      have hnil : t.filter (fun x => x.user_id == u) = [] := by
        rw [List.filter_eq_nil_iff]
        intro x hx hxu
        have hxu' : x.user_id = u := by simpa using hxu
        have hxm : x.user_id ∈ t.map (fun y => y.user_id) :=
          List.mem_map_of_mem (fun y => y.user_id) hx
        rw [hxu', ← hid] at hxm
        exact huniq.1 hxm
      rw [hnil]
    · have hpa : ¬ ((a.user_id == u) = true) := by
        intro hau
        have hau' : a.user_id = u := by simpa using hau
        have hrm : r.user_id ∈ t.map (fun y => y.user_id) :=
          List.mem_map_of_mem (fun y => y.user_id) hmt
        rw [hid, ← hau'] at hrm
        exact huniq.1 hrm
      rw [List.filter_cons, if_neg hpa]
      exact ih huniq.2 hmt

/-- C6: `check_answer` returns true exactly when the selected integer index
equals the quiz's stored `correct_index`; in particular the correct
index itself always checks true and every other integer, negative and
out-of-range values included, checks false.  The embedding is a total
pure function, so the comparison mutates nothing and crashes on no
input. -/
theorem check_answer_eq_iff (q : Quiz) (i : Int) :
    (check_answer q i = true ↔ i = (q.correct_index : Int)) ∧
    check_answer q (q.correct_index : Int) = true := by
  constructor
  · simp [check_answer]
  · simp [check_answer]

/-- C8: an answer event from a user with no stored current quiz replies
with the "request a new quiz" error and performs no state change: the
statistics table and the users table (hence the session flag) are
returned untouched and no next quiz is produced. -/
theorem answer_callback_no_quiz (db : List Word) (o : QuizOracle)
    (st : List UserStat) (tbl : List UserRow) (u : Nat) (idx : Int)
    (now : Nat) :
    answer_callback db o st tbl none u idx now
      = (st, tbl, none, AnswerOutput.noQuizError) := rfl

/-- C9: `record_answer` runs its SELECT and its UPDATE as two separate
transactions, not as one atomic read-modify-write, so interleaving two
calls for the same (user, word) loses an update: starting from one
recorded answer (0 correct of 1 total), two interleaved correct answers
leave 1 correct of 2 total recorded, while the same two calls run
sequentially leave 2 correct of 3 total. -/
theorem record_answer_lost_update :
    interleaved_record_answer [⟨7, 5, 0, 1, 0⟩] 7 5 true true 1 2
      = [⟨7, 5, 1, 2, 2⟩] ∧
    record_answer (record_answer [⟨7, 5, 0, 1, 0⟩] 7 5 true 1) 7 5 true 2
      = [⟨7, 5, 2, 3, 2⟩] := by
  constructor
  · rfl
  · rfl

/-- C5: `get_user_stats` returns the per-user sums of the correct and total
counters together with the success rate `100 * total_correct /
total_questions` rounded to one decimal place; rational division by
zero is zero, so the same formula covers the zero summary
(0, 0, 0.0) for a user with no recorded answers, stated separately
below, and after three correct and two incorrect recorded answers it
reports total_questions 5, total_correct 3, success_rate 60.0. -/
theorem get_user_stats_eq :
    (∀ (st : List UserStat) (u : Nat),
      get_user_stats st u =
        ⟨sumCorrect (st.filter (fun r => r.user_id == u)),
         sumTotal (st.filter (fun r => r.user_id == u)),
         round1 (100 * (sumCorrect (st.filter (fun r => r.user_id == u)) : ℚ) /
           (sumTotal (st.filter (fun r => r.user_id == u)) : ℚ))⟩) ∧
    (∀ u : Nat, get_user_stats [] u = ⟨0, 0, 0⟩) ∧
    get_user_stats wStats 1 = ⟨3, 5, 60⟩ := by
  refine ⟨?_, ?_, ?_⟩
  · intro st u
    unfold get_user_stats
    by_cases h : (st.filter (fun r => r.user_id == u)).isEmpty
    · have hnil : st.filter (fun r => r.user_id == u) = [] :=
        List.isEmpty_iff.mp h
      simp [h, hnil, sumCorrect, sumTotal, round1]
    · simp only [h, if_false, Bool.false_eq_true]
      refine congrArg (fun x => UserStatsSummary.mk _ _ (round1 x)) ?_
      by_cases htq :
          (sumTotal (st.filter (fun r => r.user_id == u)) : ℚ) = 0
      · simp [sumTotal, sumCorrect] at htq ⊢
        simp [htq]
      · have htq' :
            0 < ((st.filter (fun r => r.user_id == u)).map
              (fun r => r.total_answers)).sum := by
          rcases Nat.eq_zero_or_pos
            (((st.filter (fun r => r.user_id == u)).map
              (fun r => r.total_answers)).sum) with h0 | h0
          · exact absurd (by simp [sumTotal, h0]) htq
          · exact h0
        simp only [htq', if_pos, sumTotal, sumCorrect]
        rw [div_mul_eq_mul_div, mul_comm]
  · intro u
    rfl
  · have hw : wStats = [⟨1, 10, 1, 2, 2⟩, ⟨1, 11, 1, 2, 4⟩, ⟨1, 12, 1, 1, 3⟩] := by
      decide
    rw [hw]
    simp [get_user_stats, List.filter]
    norm_num [round1, round_eq]

/-- C4: `record_answer` upserts exactly one `user_stats` row for the
(user_id, word_id) pair: afterwards exactly one row matches the key
(created on the first answer), its total counter grew by exactly one,
its correct counter grew by one exactly when the answer was correct,
its `last_asked` is the current time, every other row is unchanged, and
the invariant `correct_answers ≤ total_answers` (both naturals, hence
≥ 0) is preserved. -/
theorem record_answer_upsert (st : List UserStat) (u w : Nat) (b : Bool)
    (now : Nat)
    (hkey : (st.filter (statKey u w)).length ≤ 1)
    (hinv : ∀ r ∈ st, r.correct_answers ≤ r.total_answers) :
    ((record_answer st u w b now).filter (statKey u w)).length = 1 ∧
    sumTotal ((record_answer st u w b now).filter (statKey u w))
      = sumTotal (st.filter (statKey u w)) + 1 ∧
    sumCorrect ((record_answer st u w b now).filter (statKey u w))
      = sumCorrect (st.filter (statKey u w)) + (if b then 1 else 0) ∧
    (∀ r ∈ (record_answer st u w b now).filter (statKey u w),
       r.last_asked = now) ∧
    ((record_answer st u w b now).filter (fun r => !(statKey u w r))
      = st.filter (fun r => !(statKey u w r))) ∧
    (∀ r ∈ record_answer st u w b now,
       r.correct_answers ≤ r.total_answers) := by
  rcases hsel : st.filter (statKey u w) with _ | ⟨stat, rest⟩
  · have hra : record_answer st u w b now
        = st ++ [⟨u, w, if b then 1 else 0, 1, now⟩] := by
      unfold record_answer record_answer_select record_answer_write
      rw [hsel]
    have hknew : statKey u w ⟨u, w, if b then 1 else 0, 1, now⟩ = true := by
      simp [statKey]
    have hfil : (record_answer st u w b now).filter (statKey u w)
        = [⟨u, w, if b then 1 else 0, 1, now⟩] := by
      rw [hra, List.filter_append, hsel]
      simp [hknew]
    refine ⟨?_, ?_, ?_, ?_, ?_, ?_⟩
    · rw [hfil]; rfl
    · rw [hfil]; simp [sumTotal]
    · rw [hfil]; simp [sumCorrect]
    · rw [hfil]; intro r hr
      rw [List.mem_singleton] at hr
      rw [hr]
    · rw [hra, List.filter_append]
      simp [hknew]
    · intro r hr
      rw [hra] at hr
      rcases List.mem_append.mp hr with h | h
      · exact hinv r h
      · rw [List.mem_singleton] at h
        rw [h]
        cases b <;> simp
  · have hrest : rest = [] := by
      rw [hsel] at hkey
      simp only [List.length_cons] at hkey
      exact List.eq_nil_of_length_eq_zero (by omega)
    subst hrest
    have hra : record_answer st u w b now
        = st.map (fun r =>
            if statKey u w r then
              { r with correct_answers :=
                         stat.correct_answers + (if b then 1 else 0),
                       total_answers := stat.total_answers + 1,
                       last_asked := now }
            else r) := by
      unfold record_answer record_answer_select record_answer_write
      rw [hsel]
    have hmemstat : stat ∈ st ∧ statKey u w stat = true :=
      List.mem_filter.mp (by rw [hsel]; exact List.mem_cons_self _ _)
    have hpres : ∀ x, statKey u w
        ((fun r =>
            if statKey u w r then
              { r with correct_answers :=
                         stat.correct_answers + (if b then 1 else 0),
                       total_answers := stat.total_answers + 1,
                       last_asked := now }
            else r) x) = statKey u w x := by
      intro x
      by_cases hx : statKey u w x
      · have hx' : x.user_id = u ∧ x.word_id = w := by simpa [statKey] using hx
        simp [statKey, hx'.1, hx'.2]
      · simp [hx]
    have hfilmap : (record_answer st u w b now).filter (statKey u w)
        = [{ stat with correct_answers :=
                         stat.correct_answers + (if b then 1 else 0),
                       total_answers := stat.total_answers + 1,
                       last_asked := now }] := by
      rw [hra, filter_map_comm st _ _ hpres, hsel]
      simp only [List.map_cons, List.map_nil, hmemstat.2, if_pos]
    refine ⟨?_, ?_, ?_, ?_, ?_, ?_⟩
    · rw [hfilmap]; rfl
    · rw [hfilmap]; simp [sumTotal]
    · rw [hfilmap]; simp [sumCorrect]
    · rw [hfilmap]; intro r hr
      rw [List.mem_singleton] at hr
      rw [hr]
    · rw [hra, filter_map_comm st _ _ (fun x => by rw [Bool.not_inj_iff, hpres])]
      refine Eq.trans (List.map_congr_left ?_) (List.map_id _)
      intro r hr
      have hk := (List.mem_filter.mp hr).2
      rw [Bool.not_eq_true'] at hk
      simp [hk]
    · intro r hr
      rw [hra] at hr
      rcases List.mem_map.mp hr with ⟨x, hx, rfl⟩
      by_cases hxk : statKey u w x
      · have hs := hinv stat hmemstat.1
        simp only [hxk, if_true]
        cases b <;> simp <;> omega
      · simp only [hxk, if_false]
        exact hinv x hx

/-- C7: the per-user session flag follows the two-state machine of the
handlers: a start request while the flag is active returns the table
unchanged and reports the already-active warning to the user; a start
request while inactive marks the session active; a stop request always
leaves the flag inactive and reports the user's final statistics. -/
theorem session_flag_machine (tbl : List UserRow) (st : List UserStat)
    (u : Nat) (un fn : Option String) (now : Nat) :
    (sessionActive tbl u = true →
        quiz_session_command tbl u un fn now
          = (tbl, SessionReply.warningActive)) ∧
    (sessionActive tbl u = false →
        (quiz_session_command tbl u un fn now).2 = SessionReply.started ∧
        sessionActive (quiz_session_command tbl u un fn now).1 u = true) ∧
    sessionActive (stop_command tbl st u).1 u = false ∧
    (stop_command tbl st u).2 = get_user_stats st u := by
  have hdisj : (tbl.filter (fun r => r.user_id != u)).filter
      (fun r => r.user_id == u) = [] := by
    rw [List.filter_eq_nil_iff]
    intro x hx hxu
    have hne := (List.mem_filter.mp hx).2
    simp at hne hxu
    exact hne hxu
  refine ⟨?_, ?_, ?_, rfl⟩
  · intro h
    rw [quiz_session_command, if_pos h]
  · intro h
    rw [quiz_session_command, if_neg (by simp [h])]
    refine ⟨rfl, ?_⟩
    show sessionActive (insert_or_replace_user tbl u un fn now) u = true
    rw [sessionActive, insert_or_replace_user, List.filter_append, hdisj]
    simp
  · show sessionActive (tbl.map (fun r =>
        if r.user_id == u then { r with quiz_session_active := false }
        else r)) u = false
    rw [sessionActive, filter_map_comm tbl _ _ ?hpres]
    case hpres =>
      intro x
      by_cases hx : (x.user_id == u) = true
      · simp [hx]
      · simp at hx
        simp [hx]
    rcases hf : tbl.filter (fun r => r.user_id == u) with _ | ⟨r, t⟩
    · rw [hf]
      rfl
    · rw [hf]
      have hrmem : r ∈ List.filter (fun x => x.user_id == u) tbl := by
        rw [hf]
        exact List.mem_cons_self r t
      have hr : r.user_id = u := by
        simpa using (List.mem_filter.mp hrmem).2
      simp [hr]

/-- C10: starting a session for a user whose row exists with the flag
inactive goes through INSERT OR REPLACE and rebuilds the whole row:
besides setting quiz_session_active, the columns auto_quiz_enabled,
questions_per_session, session_interval_minutes, last_auto_quiz and
joined_at all revert to their declared defaults (1, 5, 15, NULL,
CURRENT_TIMESTAMP) whatever they were before; stopping a session
changes only the quiz_session_active column and preserves every other
column of the row. -/
theorem quiz_session_row_reset (tbl : List UserRow) (st : List UserStat)
    (r : UserRow) (u : Nat) (un fn : Option String) (now : Nat)
    (hmem : r ∈ tbl) (hid : r.user_id = u)
    (hflag : r.quiz_session_active = false)
    (huniq : (tbl.map (fun x => x.user_id)).Nodup) :
    (quiz_session_command tbl u un fn now).1.filter (fun x => x.user_id == u)
      = [⟨u, un, fn, true, true, 5, 15, none, now⟩] ∧
    (stop_command tbl st u).1.filter (fun x => x.user_id == u)
      = [{ r with quiz_session_active := false }] := by
  have hfil := users_filter_eq_single huniq hmem hid
  have hact : sessionActive tbl u = false := by
    unfold sessionActive
    rw [hfil]
    exact hflag
  constructor
  · rw [quiz_session_command, if_neg (by simp [hact])]
    show (insert_or_replace_user tbl u un fn now).filter
        (fun x => x.user_id == u) = _
    rw [insert_or_replace_user, List.filter_append]
    have hdisj : (tbl.filter (fun x => x.user_id != u)).filter
        (fun x => x.user_id == u) = [] := by
      rw [List.filter_eq_nil_iff]
      intro x hx hxu
      have hne := (List.mem_filter.mp hx).2
      simp at hne hxu
      exact hne hxu
    rw [hdisj]
    simp
  · show (tbl.map (fun x =>
        if x.user_id == u then { x with quiz_session_active := false }
        else x)).filter (fun x => x.user_id == u) = _
    rw [filter_map_comm tbl _ _ ?pres, hfil]
    case pres =>
      intro x
      by_cases hx : (x.user_id == u) = true
      · simp [hx]
      · simp at hx
        simp [hx]
    simp [hid]

/-- C2: under a valid randomness oracle and a well-formed words table
(primary-key ids duplicate-free), `generate_quiz` returns the failure
signal `none` exactly when the vocabulary is empty or fewer than 3
distractor candidates exist for the sampled word (its category's
candidate set per the first fetch), and every successful quiz has
exactly 4 answer options — in both directions, including the RU→GR
branch that re-fetches Greek distractors. -/
theorem generate_quiz_none_iff (db : List Word) (o : QuizOracle)
    (hv : ValidOracle db o) (hids : (db.map (fun x => x.id)).Nodup) :
    (db = [] → generate_quiz db o = none) ∧
    (∀ w, o.pickWord = some w →
       (generate_quiz db o = none ↔
         (wrongAnswerCandidates db w.id w.word_type w.russian).length < 3)) ∧
    (∀ q, generate_quiz db o = some q → q.answers.length = 4) := by
  obtain ⟨hpick, hshuf⟩ := hv
  refine ⟨?_, ?_, ?_⟩
  · intro hdb
    cases hp : o.pickWord with
    | none => simp only [generate_quiz, hp]
    | some w =>
      rw [hp] at hpick
      exact absurd (hdb ▸ hpick.1) (List.not_mem_nil w)
  · intro w hw
    rw [hw] at hpick
    obtain ⟨hwdb, hs1, hs2⟩ := hpick
    have hlen1 : (generate_wrong_answers o.sel1).length
        = min 3 (wrongAnswerCandidates db w.id w.word_type w.russian).length := by
      rw [generate_wrong_answers, List.length_map]
      exact hs1.2
    simp only [generate_quiz, hw]
    by_cases hlt :
        (wrongAnswerCandidates db w.id w.word_type w.russian).length < 3
    · rw [if_pos (by rw [hlen1]; omega)]
      simp [hlt]
    · rw [if_neg (by rw [hlen1]; omega)]
      simp [hlt]
  · intro q hq
    cases hp : o.pickWord with
    | none =>
      simp only [generate_quiz, hp] at hq
      exact Option.noConfusion hq
    | some w =>
      rw [hp] at hpick
      obtain ⟨hwdb, hs1, hs2⟩ := hpick
      have hlen1 : (generate_wrong_answers o.sel1).length
          = min 3 (wrongAnswerCandidates db w.id w.word_type w.russian).length := by
        rw [generate_wrong_answers, List.length_map]
        exact hs1.2
      simp only [generate_quiz, hp] at hq
      by_cases hlt : (generate_wrong_answers o.sel1).length < 3
      · rw [if_pos hlt] at hq
        cases hq
      · rw [if_neg hlt] at hq
        have hc1 :
            3 ≤ (wrongAnswerCandidates db w.id w.word_type w.russian).length := by
          rw [hlen1] at hlt
          omega
        have hq' := Option.some.inj hq
        have hqa : q.answers = o.shuffle
            ((if o.dir then w.russian else w.greek) ::
              (if o.dir then generate_wrong_answers o.sel1
               else o.sel2.map (fun x => x.greek))) := by
          rw [← hq']
        have hc2 : 3 ≤ (wordCandidates db w.id w.word_type).length := by
        
          by_cases hph : (w.word_type == "phrase") = true
          · have hmono := length_filter_mono db
              (fun x => x.russian != w.russian && x.word_type == "phrase")
              (fun x => x.id != w.id && x.word_type == w.word_type) ?_
            · rw [wrongAnswerCandidates, if_pos hph, phraseCandidates] at hc1
              rw [wordCandidates]
              omega
            · intro x hx hpx
              have hph' : w.word_type = "phrase" := by simpa using hph
              simp only [Bool.and_eq_true, bne_iff_ne, beq_iff_eq] at hpx ⊢
              refine ⟨?_, by rw [hpx.2, hph']⟩
              intro hxid
              exact hpx.1
                (congrArg Word.russian
                  (List.inj_on_of_nodup_map hids hx hwdb hxid)) 
          · rw [wrongAnswerCandidates, if_neg hph] at hc1
            exact hc1
        rw [hqa, (hshuf _).length_eq, List.length_cons]
        cases hdir : o.dir with
        | true =>
          rw [if_pos rfl, generate_wrong_answers, List.length_map, hs1.2]
          rw [generate_wrong_answers, List.length_map, hs1.2] at hlt
          omega
        | false =>
          rw [if_neg (by simp), List.length_map, hs2.2]
          omega

/-- C3: for every quiz produced by `generate_quiz` under a valid oracle,
the stored `correct_index` is in range and the answer list entry at
`correct_index` is the sampled word's russian translation when the
direction is GR→RU and its greek term when the direction is RU→GR —
after the shuffle, because the index is recomputed on the shuffled
list. -/
theorem generate_quiz_correct_index (db : List Word) (o : QuizOracle)
    (w : Word) (q : Quiz) (hv : ValidOracle db o)
    (hw : o.pickWord = some w) (hq : generate_quiz db o = some q) :
    q.correct_index < q.answers.length ∧
    (q.direction = "GR→RU" → q.answers.getD q.correct_index "" = w.russian) ∧
    (q.direction = "RU→GR" → q.answers.getD q.correct_index "" = w.greek) := by
  obtain ⟨hpick, hshuf⟩ := hv
  simp only [generate_quiz, hw] at hq
  by_cases hlt : (generate_wrong_answers o.sel1).length < 3
  · rw [if_pos hlt] at hq
    exact Option.noConfusion hq
  · rw [if_neg hlt] at hq
    cases hodir : o.dir with
    | true =>
      rw [hodir] at hq
      simp only [eq_self_iff_true, if_true] at hq
      have hq' := Option.some.inj hq
      have hqa : q.answers
          = o.shuffle (w.russian :: generate_wrong_answers o.sel1) := by
        rw [← hq']
      have hqi : q.correct_index
          = (o.shuffle (w.russian :: generate_wrong_answers o.sel1)).indexOf
              w.russian := by
        rw [← hq']
      have hdir : q.direction = "GR→RU" := by rw [← hq']
      have hmem : w.russian
          ∈ o.shuffle (w.russian :: generate_wrong_answers o.sel1) :=
        (hshuf _).mem_iff.mpr (List.mem_cons_self _ _)
      have hidx := List.indexOf_lt_length.mpr hmem
      refine ⟨by rw [hqa, hqi]; exact hidx, ?_, ?_⟩
      · intro _
        rw [hqa, hqi]
        exact (List.getD_eq_get _ _ hidx).trans (List.indexOf_get hidx)
      · intro hd
        rw [hdir] at hd
        exact absurd hd (by decide)
    | false =>
      rw [hodir] at hq
      simp only [Bool.false_eq_true, if_false] at hq
      have hq' := Option.some.inj hq
      have hqa : q.answers
          = o.shuffle (w.greek :: o.sel2.map (fun x => x.greek)) := by
        rw [← hq']
      have hqi : q.correct_index
          = (o.shuffle (w.greek :: o.sel2.map (fun x => x.greek))).indexOf
              w.greek := by
        rw [← hq']
      have hdir : q.direction = "RU→GR" := by rw [← hq']
      have hmem : w.greek
          ∈ o.shuffle (w.greek :: o.sel2.map (fun x => x.greek)) :=
        (hshuf _).mem_iff.mpr (List.mem_cons_self _ _)
      have hidx := List.indexOf_lt_length.mpr hmem
      refine ⟨by rw [hqa, hqi]; exact hidx, ?_, ?_⟩
      · intro hd
        rw [hdir] at hd
        exact absurd hd (by decide)
      · intro _
        rw [hqa, hqi]
        exact (List.getD_eq_get _ _ hidx).trans (List.indexOf_get hidx)

/-- C1 as stated fails on the code: the distractor queries exclude only
the correct word's row id (or, for phrases, its exact translation), and
the words table enforces no uniqueness on translations, so with two
nouns sharing the translation "dom" a valid oracle realisation yields a
quiz whose four answers contain "dom" twice — the answers are not
pairwise distinct and a distractor equals the correct word's
translation. -/
theorem quiz_duplicate_answers_cex :
    ValidOracle cexDb cexOracle ∧
    generate_quiz cexDb cexOracle = some cexQuiz ∧
    ¬ cexQuiz.answers.Nodup ∧
    cexQuiz.answers.count "dom" = 2 ∧
    cexQuiz.answers.getD cexQuiz.correct_index "" = "dom" := by
  refine ⟨⟨?_, fun l => List.Perm.refl l⟩, ?_, ?_, ?_, ?_⟩
  · show cexW ∈ cexDb ∧
      SqlRandomLimit
        (wrongAnswerCandidates cexDb cexW.id cexW.word_type cexW.russian) 3
        cexOracle.sel1 ∧
      SqlRandomLimit (wordCandidates cexDb cexW.id cexW.word_type) 3
        cexOracle.sel2
    decide
  · decide
  · decide
  · decide
  · decide

/-- C1 amended: when the vocabulary's translation strings are pairwise
distinct and its term strings are pairwise distinct (as the spec's
intent presumes; the code itself never deduplicates answer strings),
every quiz produced under a valid oracle has pairwise distinct answers,
and the correct answer — the sampled word's translation for GR→RU, its
term for RU→GR — appears exactly once, so no distractor equals it. -/
theorem generate_quiz_answers_distinct (db : List Word) (o : QuizOracle)
    (w : Word) (q : Quiz) (hv : ValidOracle db o)
    (hru : (db.map (fun x => x.russian)).Nodup)
    (hgr : (db.map (fun x => x.greek)).Nodup)
    (hw : o.pickWord = some w) (hq : generate_quiz db o = some q) :
    q.answers.Nodup ∧
    q.answers.count (if o.dir then w.russian else w.greek) = 1 := by
  obtain ⟨hpick, hshuf⟩ := hv
  rw [hw] at hpick
  obtain ⟨hwdb, hs1, hs2⟩ := hpick
  simp only [generate_quiz, hw] at hq
  by_cases hlt : (generate_wrong_answers o.sel1).length < 3
  · rw [if_pos hlt] at hq
    exact Option.noConfusion hq
  · rw [if_neg hlt] at hq
    have hcand : List.Sublist
        (wrongAnswerCandidates db w.id w.word_type w.russian) db := by
      rw [wrongAnswerCandidates]
      by_cases hph : (w.word_type == "phrase") = true
      · rw [if_pos hph, phraseCandidates]
        exact List.filter_sublist db
      · rw [if_neg hph, wordCandidates]
        exact List.filter_sublist db
    have hcand2 : List.Sublist (wordCandidates db w.id w.word_type) db := by
      rw [wordCandidates]
      exact List.filter_sublist db
    cases hodir : o.dir with
    | true =>
      rw [hodir] at hq
      simp only [eq_self_iff_true, if_true] at hq
      have hq' := Option.some.inj hq
      have hqa : q.answers
          = o.shuffle (w.russian :: generate_wrong_answers o.sel1) := by
        rw [← hq']
      have hsub : List.Subperm o.sel1 db := hs1.1.trans hcand.subperm
      have hndsel : (o.sel1.map (fun x => x.russian)).Nodup :=
        subperm_nodup (subperm_map _ hsub) hru
      have hnotmem : w.russian ∉ o.sel1.map (fun x => x.russian) := by
        intro hmem
        rcases List.mem_map.mp hmem with ⟨x, hxsel, hxru⟩
        have hxc1 : x ∈ wrongAnswerCandidates db w.id w.word_type w.russian :=
          hs1.1.subset hxsel
        by_cases hph : (w.word_type == "phrase") = true
        · rw [wrongAnswerCandidates, if_pos hph, phraseCandidates] at hxc1
          have hpred := (List.mem_filter.mp hxc1).2
          simp at hpred
          exact hpred.1 hxru
        · rw [wrongAnswerCandidates, if_neg hph, wordCandidates] at hxc1
          have hxdb := (List.mem_filter.mp hxc1).1
          have hpred := (List.mem_filter.mp hxc1).2
          simp at hpred
          exact hpred.1 (congrArg Word.id
            (List.inj_on_of_nodup_map hru hxdb hwdb hxru))
      have hnodup0 : (w.russian :: generate_wrong_answers o.sel1).Nodup := by
        rw [generate_wrong_answers, List.nodup_cons]
        exact ⟨hnotmem, hndsel⟩
      refine ⟨?_, ?_⟩
      · rw [hqa]
        exact (hshuf _).nodup_iff.mpr hnodup0
      · rw [hqa, (hshuf _).count_eq]
        exact List.count_eq_one_of_mem hnodup0 (List.mem_cons_self _ _)
    | false =>
      rw [hodir] at hq
      simp only [Bool.false_eq_true, if_false] at hq
      have hq' := Option.some.inj hq
      have hqa : q.answers
          = o.shuffle (w.greek :: o.sel2.map (fun x => x.greek)) := by
        rw [← hq']
      have hsub : List.Subperm o.sel2 db := hs2.1.trans hcand2.subperm
      have hndsel : (o.sel2.map (fun x => x.greek)).Nodup :=
        subperm_nodup (subperm_map _ hsub) hgr
      have hnotmem : w.greek ∉ o.sel2.map (fun x => x.greek) := by
        intro hmem
        rcases List.mem_map.mp hmem with ⟨x, hxsel, hxgr⟩
        have hxc2 : x ∈ wordCandidates db w.id w.word_type :=
          hs2.1.subset hxsel
        rw [wordCandidates] at hxc2
        have hxdb := (List.mem_filter.mp hxc2).1
        have hpred := (List.mem_filter.mp hxc2).2
        simp at hpred
        exact hpred.1 (congrArg Word.id
          (List.inj_on_of_nodup_map hgr hxdb hwdb hxgr))
      have hnodup0 : (w.greek :: o.sel2.map (fun x => x.greek)).Nodup := by
        rw [List.nodup_cons]
        exact ⟨hnotmem, hndsel⟩
      refine ⟨?_, ?_⟩
      · rw [hqa]
        exact (hshuf _).nodup_iff.mpr hnodup0
      · rw [hqa, (hshuf _).count_eq]
        exact List.count_eq_one_of_mem hnodup0 (List.mem_cons_self _ _)

/-- Witness instantiating the amended C1 theorem on the concrete
duplicate-free vocabulary `wDb` and oracle `wOracle`. -/
theorem generate_quiz_answers_distinct_witness :
    (wDb.map (fun x => x.russian)).Nodup ∧
    (wDb.map (fun x => x.greek)).Nodup ∧
    (⟨1, "voda", ["nero", "spiti", "psomi", "vivlio"], 0, "RU→GR", "noun"⟩
      : Quiz).answers.Nodup ∧
    (⟨1, "voda", ["nero", "spiti", "psomi", "vivlio"], 0, "RU→GR", "noun"⟩
      : Quiz).answers.count "nero" = 1 := by
  have hv : ValidOracle wDb wOracle := by
    refine ⟨?_, fun l => List.Perm.refl l⟩
    show (⟨1, "nero", "voda", "noun"⟩ : Word) ∈ wDb ∧
      SqlRandomLimit (wrongAnswerCandidates wDb 1 "noun" "voda") 3
        wOracle.sel1 ∧
      SqlRandomLimit (wordCandidates wDb 1 "noun") 3 wOracle.sel2
    decide
  have h := generate_quiz_answers_distinct wDb wOracle
    ⟨1, "nero", "voda", "noun"⟩
    ⟨1, "voda", ["nero", "spiti", "psomi", "vivlio"], 0, "RU→GR", "noun"⟩
    hv (by decide) (by decide) rfl (by decide)
  exact ⟨by decide, by decide, h.1, h.2⟩

/-- Witness instantiating the C2 theorem: on `wDb` with `wOracle` the
generated quiz exists and has exactly 4 answer options. -/
theorem generate_quiz_none_iff_witness :
    (wDb.map (fun x => x.id)).Nodup ∧
    (⟨1, "voda", ["nero", "spiti", "psomi", "vivlio"], 0, "RU→GR", "noun"⟩
      : Quiz).answers.length = 4 := by
  have hv : ValidOracle wDb wOracle := by
    refine ⟨?_, fun l => List.Perm.refl l⟩
    show (⟨1, "nero", "voda", "noun"⟩ : Word) ∈ wDb ∧
      SqlRandomLimit (wrongAnswerCandidates wDb 1 "noun" "voda") 3
        wOracle.sel1 ∧
      SqlRandomLimit (wordCandidates wDb 1 "noun") 3 wOracle.sel2
    decide
  refine ⟨by decide, ?_⟩
  exact (generate_quiz_none_iff wDb wOracle hv (by decide)).2.2
    ⟨1, "voda", ["nero", "spiti", "psomi", "vivlio"], 0, "RU→GR", "noun"⟩
    (by decide)

/-- Witness instantiating the C3 theorem: in the concrete RU→GR quiz over
`wDb` the correct index is in range and selects the sampled word's
greek term. -/
theorem generate_quiz_correct_index_witness :
    (⟨1, "voda", ["nero", "spiti", "psomi", "vivlio"], 0, "RU→GR", "noun"⟩
      : Quiz).correct_index
      < (⟨1, "voda", ["nero", "spiti", "psomi", "vivlio"], 0, "RU→GR",
          "noun"⟩ : Quiz).answers.length ∧
    (⟨1, "voda", ["nero", "spiti", "psomi", "vivlio"], 0, "RU→GR", "noun"⟩
      : Quiz).answers.getD
        (⟨1, "voda", ["nero", "spiti", "psomi", "vivlio"], 0, "RU→GR",
          "noun"⟩ : Quiz).correct_index "" = "nero" := by
  have hv : ValidOracle wDb wOracle := by
    refine ⟨?_, fun l => List.Perm.refl l⟩
    show (⟨1, "nero", "voda", "noun"⟩ : Word) ∈ wDb ∧
      SqlRandomLimit (wrongAnswerCandidates wDb 1 "noun" "voda") 3
        wOracle.sel1 ∧
      SqlRandomLimit (wordCandidates wDb 1 "noun") 3 wOracle.sel2
    decide
  have h := generate_quiz_correct_index wDb wOracle
    ⟨1, "nero", "voda", "noun"⟩
    ⟨1, "voda", ["nero", "spiti", "psomi", "vivlio"], 0, "RU→GR", "noun"⟩
    hv rfl (by decide)
  exact ⟨h.1, h.2.2 rfl⟩

/-- Witness instantiating the C4 theorem on a one-row statistics table:
after recording a correct answer the key still matches exactly one row
and its totals grew as specified. -/
theorem record_answer_upsert_witness :
    (([⟨1, 2, 1, 1, 0⟩] : List UserStat).filter (statKey 1 2)).length ≤ 1 ∧
    ((record_answer [⟨1, 2, 1, 1, 0⟩] 1 2 true 9).filter
       (statKey 1 2)).length = 1 ∧
    sumTotal ((record_answer [⟨1, 2, 1, 1, 0⟩] 1 2 true 9).filter
       (statKey 1 2))
      = sumTotal (([⟨1, 2, 1, 1, 0⟩] : List UserStat).filter (statKey 1 2))
          + 1 := by
  have h := record_answer_upsert [⟨1, 2, 1, 1, 0⟩] 1 2 true 9 (by decide)
    (by decide)
  exact ⟨by decide, h.1, h.2.1⟩

/-- Witness instantiating the C7 theorem: starting twice warns and leaves
the one-user table unchanged, and starting from an empty table
activates the session flag. -/
theorem session_flag_machine_witness :
    quiz_session_command [⟨1, none, none, true, true, 5, 15, none, 0⟩] 1
      none none 9
      = ([⟨1, none, none, true, true, 5, 15, none, 0⟩],
         SessionReply.warningActive) ∧
    sessionActive (quiz_session_command [] 1 none none 9).1 1 = true := by
  constructor
  · exact (session_flag_machine [⟨1, none, none, true, true, 5, 15, none, 0⟩]
      [] 1 none none 9).1 (by decide)
  · exact ((session_flag_machine [] [] 1 none none 9).2.1 (by decide)).2

/-- Witness instantiating the C10 theorem on a row whose settings differ
from the column defaults: starting a session resets them, stopping
preserves them. -/
theorem quiz_session_row_reset_witness :
    (quiz_session_command
        [⟨1, some "old", some "name", false, false, 9, 99, some 7, 3⟩] 1
        none none 42).1.filter (fun x => x.user_id == 1)
      = [⟨1, none, none, true, true, 5, 15, none, 42⟩] ∧
    (stop_command
        [⟨1, some "old", some "name", false, false, 9, 99, some 7, 3⟩] []
        1).1.filter (fun x => x.user_id == 1)
      = [⟨1, some "old", some "name", false, false, 9, 99, some 7, 3⟩] := by
  exact quiz_session_row_reset
    [⟨1, some "old", some "name", false, false, 9, 99, some 7, 3⟩] []
    ⟨1, some "old", some "name", false, false, 9, 99, some 7, 3⟩ 1 none none
    42 (by decide) rfl rfl (by decide)
